import Mathlib

/-!
Verification of the text-normalization pipeline of the news server
(`cleanText` and `cleanNewsContent` in `server.js`), embedded over
`List Char` strings and association-list records.
-/

/-- The apostrophe character, U+0027. -/
def apos : Char := Char.ofNat 39

/-- The backslash character, U+005C. -/
def bsl : Char := '\\'

/-- The JavaScript regular-expression whitespace class matched by the source
regex `\s` and by `String.prototype.trim`: space, tab, line feed, carriage
return, vertical tab, form feed, NBSP, and the Unicode space separators,
line/paragraph separators and BOM. -/
def isJsWs (c : Char) : Bool :=
  c == ' ' || c == '\t' || c == '\n' || c == '\r' ||
  c == Char.ofNat 11 || c == Char.ofNat 12 ||
  c == Char.ofNat 0xA0 || c == Char.ofNat 0x1680 ||
  (decide (0x2000 ≤ c.toNat) && decide (c.toNat ≤ 0x200A)) ||
  c == Char.ofNat 0x2028 || c == Char.ofNat 0x2029 ||
  c == Char.ofNat 0x202F || c == Char.ofNat 0x205F ||
  c == Char.ofNat 0x3000 || c == Char.ofNat 0xFEFF

/-- Modelled from the spec: the named-entity table of the external `he`
HTML-entity decoder used by `cleanText` ("replace every HTML character entity
(named, e.g. `&amp;`, or numeric, e.g. `&#39;`) with its literal character");
the library itself is a third-party dependency not present in the repository,
so only the entities exercised by the specification are tabulated. -/
def entityTable : List (List Char × Char) :=
  [ (['a', 'm', 'p'], '&'),
    (['l', 't'], '<'),
    (['g', 't'], '>'),
    (['q', 'u', 'o', 't'], '"'),
    (['a', 'p', 'o', 's'], apos),
    (['n', 'b', 's', 'p'], Char.ofNat 0xA0),
    (['e', 'a', 'c', 'u', 't', 'e'], 'é'),
    (['E', 'a', 'c', 'u', 't', 'e'], 'É'),
    (['c', 'o', 'p', 'y'], Char.ofNat 0xA9) ]

/-- Value of one hexadecimal digit. -/
def hexVal (c : Char) : Option Nat :=
  if c.isDigit then some (c.toNat - 48)
  else if decide ('a' ≤ c) && decide (c ≤ 'f') then some (c.toNat - 87)
  else if decide ('A' ≤ c) && decide (c ≤ 'F') then some (c.toNat - 55)
  else none

/-- Value of a non-empty string of hexadecimal digits. -/
def hexDigits : List Char → Option Nat
  | [] => none
  | ds => ds.foldl
      (fun acc c =>
        match acc, hexVal c with
        | some a, some h => some (a * 16 + h)
        | _, _ => none)
      (some 0)

/-- Value of a non-empty string of decimal digits. -/
def decDigits (ds : List Char) : Option Nat :=
  if ds ≠ [] ∧ ds.all (fun c => c.isDigit) then
    some (ds.foldl (fun acc c => acc * 10 + (c.toNat - 48)) 0)
  else none

/-- Modelled from the spec: decoding of one entity body (the characters
between `&` and `;`), named or numeric (decimal `#NNN` or hex `#xHH`),
returning `none` when the body is not a recognised entity. -/
def decodeName (name : List Char) : Option Char :=
  match name with
  | '#' :: ds =>
    let n? :=
      match ds with
      | 'x' :: hs => hexDigits hs
      | 'X' :: hs => hexDigits hs
      | _ => decDigits ds
    match n? with
    | some n =>
      if n < 0xD800 ∨ (0xE000 ≤ n ∧ n < 0x110000) then some (Char.ofNat n)
      else none
    | none => none
  | _ => (entityTable.find? (fun p => p.1 == name)).map (fun p => p.2)

/-- Modelled from the spec: the scanning loop of the external `he` decoder.
`buf = none` is ordinary text; `buf = some b` holds the (reversed) characters
read since the last `&`. A recognised `&body;` is replaced by its character;
unrecognised or unterminated candidates are left verbatim. -/
def decGo : Option (List Char) → List Char → List Char
  | none, [] => []
  | some b, [] => '&' :: b.reverse
  | none, c :: rest =>
    if c = '&' then decGo (some []) rest else c :: decGo none rest
  | some b, c :: rest =>
    if c = ';' then
      match decodeName b.reverse with
      | some ch => ch :: decGo none rest
      | none => '&' :: (b.reverse ++ ';' :: decGo none rest)
    else if c = '&' then '&' :: (b.reverse ++ decGo (some []) rest)
    else decGo (some (c :: b)) rest

/-- Modelled from the spec: `he.decode`, entity decoding of a whole string. -/
def decodeEntities (l : List Char) : List Char := decGo none l

/-- Modelled from the spec: the scanning loop of the external `striptags`
library — "remove every HTML tag (`<...>`) while retaining the enclosed
text; self-closing and unmatched tags are removed without raising an
error". The flag records whether the scanner is inside a tag. -/
def stripGo : Bool → List Char → List Char
  | _, [] => []
  | true, c :: rest => if c = '>' then stripGo false rest else stripGo true rest
  | false, c :: rest => if c = '<' then stripGo true rest else c :: stripGo false rest

/-- Modelled from the spec: `striptags` on a whole string. -/
def stripTags (l : List Char) : List Char := stripGo false l

/-- Global, left-to-right, non-overlapping replacement of the two-character
literal pattern `a b` by `rep`: the semantics of the source's
`.replace(/ab/g, rep)` calls, every pattern of which is a two-character
literal. -/
def replace2 (a b : Char) (rep : List Char) : List Char → List Char
  | [] => []
  | [c] => [c]
  | c :: d :: rest =>
    if c = a ∧ d = b then rep ++ replace2 a b rep rest
    else c :: replace2 a b rep (d :: rest)

/-- The source's `.replace(/\s+/g, " ")`: every maximal run of whitespace
becomes a single space. -/
def collapseWs : List Char → List Char
  | [] => []
  | [c] => if isJsWs c then [' '] else [c]
  | a :: b :: rest =>
    if isJsWs a && isJsWs b then collapseWs (b :: rest)
    else (if isJsWs a then ' ' else a) :: collapseWs (b :: rest)

/-- Removal of trailing whitespace. -/
def trimEnd : List Char → List Char
  | [] => []
  | c :: rest =>
    match trimEnd rest with
    | [] => if isJsWs c then [] else [c]
    | x :: xs => c :: x :: xs

/-- The source's `.trim()`: leading and trailing whitespace removed. -/
def jsTrim (l : List Char) : List Char := trimEnd (l.dropWhile (fun c => isJsWs c))

/-- The twenty chained `.replace` calls of `cleanText`, in source order. -/
def escapeChain (l : List Char) : List Char :=
  l |> replace2 bsl ',' [',']
    |> replace2 bsl '-' ['-']
    |> replace2 bsl '/' ['/']
    |> replace2 '/' '/' []
    |> replace2 '/' '.' ['.']
    |> replace2 bsl '.' ['.']
    |> replace2 bsl ':' [':']
    |> replace2 bsl ';' [';']
    |> replace2 bsl apos [apos]
    |> replace2 bsl '"' ['"']
    |> replace2 bsl '(' ['(']
    |> replace2 bsl ')' [')']
    |> replace2 bsl '[' ['[']
    |> replace2 bsl ']' [']']
    |> replace2 bsl '!' ['!']
    |> replace2 bsl '?' ['?']
    |> replace2 bsl 'n' ['\n']
    |> replace2 bsl 'r' ['\r']
    |> replace2 bsl 't' ['\t']
    |> replace2 bsl bsl [bsl]

/-- The body of `cleanText` on a non-falsy string: entity decode, tag strip,
the twenty replacements, whitespace collapse, trim — exactly the source
chain. -/
def cleanTextList (l : List Char) : List Char :=
  jsTrim (collapseWs (escapeChain (stripTags (decodeEntities l))))

/-- `cleanText` restricted to genuine strings. -/
def cleanTextStr (s : String) : String := String.mk (cleanTextList s.data)

/-- A JavaScript value as far as the news records need one. -/
inductive JsValue where
  | jNull
  | jUndef
  | jBool (b : Bool)
  | jNum (n : Int)
  | jStr (s : String)
deriving DecidableEq, Repr

/-- JavaScript falsiness on `JsValue` (the `!text` test of `cleanText`). -/
def isFalsy : JsValue → Bool
  | .jNull => true
  | .jUndef => true
  | .jBool b => !b
  | .jNum n => n == 0
  | .jStr s => s == ""

/-- The source function `cleanText`: falsy inputs are returned unchanged;
a non-falsy string goes through the pipeline; a non-falsy non-string makes
the `he` library throw, modelled as `none`. -/
def cleanText (v : JsValue) : Option JsValue :=
  if isFalsy v then some v
  else
    match v with
    | .jStr s => some (.jStr (cleanTextStr s))
    | _ => none

/-- A JavaScript object: an ordered association list of own properties, as a
JS object literal keeps them (no duplicate keys arise from the operations
used here). -/
abbrev JsObj := List (String × JsValue)

/-- Property read `o[key]`; an absent key reads as `undefined`. -/
def getField : JsObj → String → JsValue
  | [], _ => .jUndef
  | (k, v) :: rest, key => if k = key then v else getField rest key

/-- Property write as an object literal `{...o, key: v}` performs it: an
existing key keeps its position and gets the new value, a fresh key is
appended at the end. -/
def setField : JsObj → String → JsValue → JsObj
  | [], key, v => [(key, v)]
  | (k, w) :: rest, key, v =>
    if k = key then (key, v) :: rest else (k, w) :: setField rest key v

/-- Whether the object has the key among its own properties. -/
def hasKey : JsObj → String → Bool
  | [], _ => false
  | (k, _) :: rest, key => if k = key then true else hasKey rest key

/-- The five text fields cleaned by `cleanNewsContent`. -/
def textKeys : List String := ["title", "description", "content", "author", "category"]

/-- The record-cleaning body shared by both branches of `cleanNewsContent`:
`{...newsObj, title: cleanText(newsObj.title), ..., category: cleanText(newsObj.category)}`.
All five reads are from the original object; `none` models a thrown
exception. -/
def cleanRecordFrom (src : JsObj) : Option JsObj := do
  let t ← cleanText (getField src "title")
  let d ← cleanText (getField src "description")
  let c ← cleanText (getField src "content")
  let a ← cleanText (getField src "author")
  let g ← cleanText (getField src "category")
  pure (setField (setField (setField (setField (setField src "title" t)
    "description" d) "content" c) "author" a) "category" g)

/-- The possible shapes of the `news` argument of `cleanNewsContent`. -/
inductive NewsValue where
  | nullV
  | undefV
  | obj (o : JsObj)
  | arr (l : List JsObj)
deriving DecidableEq, Repr

/-- `news.map(item => ...)` over an array of records, left to right; an
exception in any element aborts the whole map. -/
def mapClean : List JsObj → Option (List JsObj)
  | [] => some []
  | o :: rest => do
    let o' ← cleanRecordFrom o
    let rest' ← mapClean rest
    pure (o' :: rest')

/-- The source function `cleanNewsContent`. On an array, each element is
cleaned in order. Otherwise `news?.toObject` is falsy for `null`/`undefined`,
object spread of `null`/`undefined` yields an empty object, and the optional
chains `newsObj?.title` read as `undefined`, so the non-array branch on
`null`/`undefined` behaves exactly as cleaning the empty object; a plain
record is cleaned directly (`toObject` concerns only the out-of-scope
document-mapper wrapper). -/
def cleanNewsContent : NewsValue → Option NewsValue
  | .arr l => (mapClean l).map NewsValue.arr
  | .obj o => (cleanRecordFrom o).map NewsValue.obj
  | .nullV => (cleanRecordFrom []).map NewsValue.obj
  | .undefV => (cleanRecordFrom []).map NewsValue.obj

/-- The escape-repair table exactly as the specification lists it: twenty
(pattern, replacement) pairs in order, `\\ -> \` last. -/
def escapeTable : List ((Char × Char) × List Char) :=
  [ ((bsl, ','), [',']),
    ((bsl, '-'), ['-']),
    ((bsl, '/'), ['/']),
    (('/', '/'), []),
    (('/', '.'), ['.']),
    ((bsl, '.'), ['.']),
    ((bsl, ':'), [':']),
    ((bsl, ';'), [';']),
    ((bsl, apos), [apos]),
    ((bsl, '"'), ['"']),
    ((bsl, '('), ['(']),
    ((bsl, ')'), [')']),
    ((bsl, '['), ['[']),
    ((bsl, ']'), [']']),
    ((bsl, '!'), ['!']),
    ((bsl, '?'), ['?']),
    ((bsl, 'n'), ['\n']),
    ((bsl, 'r'), ['\r']),
    ((bsl, 't'), ['\t']),
    ((bsl, bsl), [bsl]) ]

/-- Sequential application of the escape-repair table in listed order, the
data-driven reading of the specification's substitution ladder. -/
def escapeRepairSpec (l : List Char) : List Char :=
  escapeTable.foldl (fun acc r => replace2 r.1.1 r.1.2 r.2 acc) l

/-- The specification's four-stage pipeline: entity decode, tag strip, the
table of twenty substitutions in listed order, whitespace collapse and
trim. -/
def cleanTextPipeline (l : List Char) : List Char :=
  jsTrim (collapseWs (escapeRepairSpec (stripTags (decodeEntities l))))

/-- No two adjacent whitespace characters. -/
def noAdjWs : List Char → Bool
  | a :: b :: rest => (!(isJsWs a && isJsWs b)) && noAdjWs (b :: rest)
  | _ => true

/-- Every whitespace character is a plain space. -/
def wsIsSpace : List Char → Bool
  | [] => true
  | c :: rest => (!isJsWs c || c == ' ') && wsIsSpace rest

/-- The first character, if any, is not whitespace. -/
def headNotWs (l : List Char) : Bool :=
  match l.head? with
  | none => true
  | some c => !isJsWs c

/-- The last character, if any, is not whitespace. -/
def lastNotWs (l : List Char) : Bool :=
  match l.getLast? with
  | none => true
  | some c => !isJsWs c

theorem noAdjWs_tail {a : Char} {l : List Char} (h : noAdjWs (a :: l) = true) :
    noAdjWs l = true := by
  cases l with
  | nil => rfl
  | cons b rest => exact (Bool.and_eq_true ..|>.mp h).2

theorem collapseWs_head_not_ws (b : Char) (rest : List Char) (h : isJsWs b = false) :
    ∃ t, collapseWs (b :: rest) = b :: t := by
  cases rest with
  | nil => exact ⟨[], by simp [collapseWs, h]⟩
  | cons c r => exact ⟨collapseWs (c :: r), by simp [collapseWs, h]⟩

theorem noAdjWs_collapseWs (l : List Char) : noAdjWs (collapseWs l) = true := by
  induction l with
  | nil => rfl
  | cons a tail ih =>
    cases tail with
    | nil =>
      by_cases h : isJsWs a = true <;> simp [collapseWs, h, noAdjWs]
    | cons b rest =>
      by_cases hab : (isJsWs a && isJsWs b) = true
      · rw [collapseWs, if_pos hab]; exact ih
      · rw [collapseWs, if_neg hab]
        by_cases ha : isJsWs a = true
        · have hb : isJsWs b = false := by
            cases hcb : isJsWs b
            · rfl
            · exact absurd (by simp [ha, hcb]) hab
          obtain ⟨t, ht⟩ := collapseWs_head_not_ws b rest hb
          rw [ht] at ih ⊢
          simp [noAdjWs, ha, hb, ih]
        · have ha2 : isJsWs a = false := by simpa using ha
          rw [if_neg ha]
          cases hc : collapseWs (b :: rest) with
          | nil => rfl
          | cons y ys =>
            rw [hc] at ih
            simp [noAdjWs, ha2, ih]

theorem eq_space_of_ws {a : Char} (h : (!isJsWs a || a == ' ') = true)
    (ha : isJsWs a = true) : a = ' ' := by
  rw [ha] at h
  simpa using h

theorem wsIsSpace_collapseWs (l : List Char) : wsIsSpace (collapseWs l) = true := by
  induction l with
  | nil => rfl
  | cons a tail ih =>
    cases tail with
    | nil =>
      by_cases h : isJsWs a = true
      · have hc : collapseWs [a] = [' '] := by simp [collapseWs, h]
        rw [hc]; decide
      · have h2 : isJsWs a = false := by simpa using h
        have hc : collapseWs [a] = [a] := by simp [collapseWs, h2]
        rw [hc]
        simp [wsIsSpace, h2]
    | cons b rest =>
      by_cases hab : (isJsWs a && isJsWs b) = true
      · rw [collapseWs, if_pos hab]; exact ih
      · rw [collapseWs, if_neg hab]
        by_cases ha : isJsWs a = true
        · rw [if_pos ha]
          simp [wsIsSpace, ih]
        · have ha2 : isJsWs a = false := by simpa using ha
          rw [if_neg ha]
          simp [wsIsSpace, ih, ha2]

theorem collapseWs_eq_self {l : List Char} (h1 : noAdjWs l = true)
    (h2 : wsIsSpace l = true) : collapseWs l = l := by
  induction l with
  | nil => rfl
  | cons a tail ih =>
    have h2a : (!isJsWs a || a == ' ') = true := (Bool.and_eq_true ..|>.mp h2).1
    have h2t : wsIsSpace tail = true := (Bool.and_eq_true ..|>.mp h2).2
    cases tail with
    | nil =>
      by_cases h : isJsWs a = true
      · simp [collapseWs, h, eq_space_of_ws h2a h]
      · simp [collapseWs, h]
    | cons b rest =>
      have hab : (isJsWs a && isJsWs b) = false := by
        cases hca : isJsWs a with
        | false => simp [hca]
        | true =>
          cases hcb : isJsWs b with
          | false => simp [hcb]
          | true =>
            exfalso
            have := (Bool.and_eq_true ..|>.mp h1).1
            rw [hca, hcb] at this
            simp at this
      rw [collapseWs, if_neg (by simp [hab])]
      rw [ih (noAdjWs_tail h1) h2t]
      by_cases ha : isJsWs a = true
      · simp [ha, eq_space_of_ws h2a ha]
      · simp [ha]

theorem dropWhile_head_false (p : Char → Bool) (l : List Char) :
    ∀ c, (l.dropWhile p).head? = some c → p c = false := by
  induction l with
  | nil => intro c h; simp [List.dropWhile] at h
  | cons a t ih =>
    intro c h
    by_cases hp : p a = true
    · rw [List.dropWhile_cons, if_pos hp] at h
      exact ih c h
    · rw [List.dropWhile_cons, if_neg hp] at h
      simp at h
      rw [← h]
      simpa using hp

theorem dropWhile_eq_self {p : Char → Bool} {l : List Char}
    (h : ∀ c, l.head? = some c → p c = false) : l.dropWhile p = l := by
  cases l with
  | nil => rfl
  | cons a t =>
    rw [List.dropWhile_cons, if_neg (by simp [h a rfl])]

theorem noAdjWs_dropWhile (p : Char → Bool) (l : List Char) (h : noAdjWs l = true) :
    noAdjWs (l.dropWhile p) = true := by
  induction l with
  | nil => rfl
  | cons a t ih =>
    by_cases hp : p a = true
    · rw [List.dropWhile_cons, if_pos hp]
      exact ih (noAdjWs_tail h)
    · rw [List.dropWhile_cons, if_neg hp]
      exact h

theorem wsIsSpace_dropWhile (p : Char → Bool) (l : List Char) (h : wsIsSpace l = true) :
    wsIsSpace (l.dropWhile p) = true := by
  induction l with
  | nil => rfl
  | cons a t ih =>
    by_cases hp : p a = true
    · rw [List.dropWhile_cons, if_pos hp]
      exact ih (Bool.and_eq_true ..|>.mp h).2
    · rw [List.dropWhile_cons, if_neg hp]
      exact h

theorem trimEnd_head {l : List Char} {x : Char} {xs : List Char}
    (h : trimEnd l = x :: xs) : ∃ t, l = x :: t := by
  cases l with
  | nil => simp [trimEnd] at h
  | cons c rest =>
    rw [trimEnd] at h
    cases hr : trimEnd rest with
    | nil =>
      rw [hr] at h
      by_cases hc : isJsWs c = true
      · rw [if_pos hc] at h; cases h
      · rw [if_neg hc] at h
        exact ⟨rest, by rw [(List.cons.injEq ..|>.mp h).1]⟩
    | cons y ys =>
      rw [hr] at h
      exact ⟨rest, by rw [(List.cons.injEq ..|>.mp h).1]⟩

theorem lastNotWs_trimEnd (l : List Char) : lastNotWs (trimEnd l) = true := by
  induction l with
  | nil => rfl
  | cons c rest ih =>
    rw [trimEnd]
    cases hr : trimEnd rest with
    | nil =>
      by_cases hc : isJsWs c = true
      · rw [if_pos hc]; rfl
      · rw [if_neg hc]
        have hc2 : isJsWs c = false := by simpa using hc
        simp [lastNotWs, hc2]
    | cons y ys =>
      rw [hr] at ih
      simpa [lastNotWs, List.getLast?_cons_cons] using ih

theorem noAdjWs_trimEnd (l : List Char) (h : noAdjWs l = true) :
    noAdjWs (trimEnd l) = true := by
  induction l with
  | nil => rfl
  | cons c rest ih =>
    rw [trimEnd]
    cases hr : trimEnd rest with
    | nil =>
      by_cases hc : isJsWs c = true
      · rw [if_pos hc]; rfl
      · rw [if_neg hc]; rfl
    | cons y ys =>
      have htail := ih (noAdjWs_tail h)
      rw [hr] at htail
      obtain ⟨t, ht⟩ := trimEnd_head hr
      rw [ht] at h
      have hpair : (!(isJsWs c && isJsWs y)) = true := (Bool.and_eq_true ..|>.mp h).1
      simp [noAdjWs, htail]
      simpa using hpair

theorem wsIsSpace_trimEnd (l : List Char) (h : wsIsSpace l = true) :
    wsIsSpace (trimEnd l) = true := by
  induction l with
  | nil => rfl
  | cons c rest ih =>
    have hc := (Bool.and_eq_true ..|>.mp h).1
    have ht := (Bool.and_eq_true ..|>.mp h).2
    rw [trimEnd]
    cases hr : trimEnd rest with
    | nil =>
      by_cases hw : isJsWs c = true
      · rw [if_pos hw]; rfl
      · rw [if_neg hw]
        simp [wsIsSpace, hc]
    | cons y ys =>
      have htail := ih ht
      rw [hr] at htail
      have e : wsIsSpace (c :: y :: ys) = ((!isJsWs c || c == ' ') && wsIsSpace (y :: ys)) := rfl
      rw [e, hc, htail]
      rfl

theorem lastNotWs_cons_cons (c d : Char) (l : List Char) :
    lastNotWs (c :: d :: l) = lastNotWs (d :: l) := by
  simp [lastNotWs, List.getLast?_cons_cons]

theorem trimEnd_eq_self {l : List Char} (h : lastNotWs l = true) : trimEnd l = l := by
  induction l with
  | nil => rfl
  | cons c rest ih =>
    cases rest with
    | nil =>
      have h2 : isJsWs c = false := by
        have e : lastNotWs [c] = !isJsWs c := rfl
        rw [e] at h
        simpa using h
      simp [trimEnd, h2]
    | cons d r =>
      have hrec : trimEnd (d :: r) = d :: r := ih (by rw [← lastNotWs_cons_cons c]; exact h)
      rw [trimEnd, hrec]

theorem headNotWs_of_head {l : List Char}
    (h : ∀ c, l.head? = some c → isJsWs c = false) : headNotWs l = true := by
  cases l with
  | nil => rfl
  | cons a t =>
    have := h a rfl
    simp [headNotWs, this]

theorem head_of_headNotWs {l : List Char} (h : headNotWs l = true) :
    ∀ c, l.head? = some c → isJsWs c = false := by
  intro c hc
  cases l with
  | nil => simp at hc
  | cons a t =>
    simp at hc
    rw [← hc]
    simpa [headNotWs] using h

theorem noAdjWs_jsTrim (l : List Char) (h : noAdjWs l = true) :
    noAdjWs (jsTrim l) = true :=
  noAdjWs_trimEnd _ (noAdjWs_dropWhile _ _ h)

theorem wsIsSpace_jsTrim (l : List Char) (h : wsIsSpace l = true) :
    wsIsSpace (jsTrim l) = true :=
  wsIsSpace_trimEnd _ (wsIsSpace_dropWhile _ _ h)

theorem headNotWs_jsTrim (l : List Char) : headNotWs (jsTrim l) = true := by
  rw [jsTrim]
  cases h : trimEnd (l.dropWhile (fun c => isJsWs c)) with
  | nil => rfl
  | cons x xs =>
    obtain ⟨t, ht⟩ := trimEnd_head h
    have := dropWhile_head_false (fun c => isJsWs c) l x (by rw [ht]; rfl)
    simp [headNotWs, this]

theorem lastNotWs_jsTrim (l : List Char) : lastNotWs (jsTrim l) = true :=
  lastNotWs_trimEnd _

theorem jsTrim_eq_self {l : List Char} (h3 : headNotWs l = true)
    (h4 : lastNotWs l = true) : jsTrim l = l := by
  rw [jsTrim, dropWhile_eq_self (head_of_headNotWs h3), trimEnd_eq_self h4]

theorem jsTrim_collapseWs_eq_self {l : List Char} (h1 : noAdjWs l = true)
    (h2 : wsIsSpace l = true) (h3 : headNotWs l = true) (h4 : lastNotWs l = true) :
    jsTrim (collapseWs l) = l := by
  rw [collapseWs_eq_self h1 h2, jsTrim_eq_self h3 h4]

/-- Whether the two-character pattern `a b` occurs (adjacently) in the list. -/
def contains2 (a b : Char) : List Char → Bool
  | c :: d :: rest => (c == a && d == b) || contains2 a b (d :: rest)
  | _ => false

theorem replace2_eq_self {a b : Char} (rep : List Char) {l : List Char}
    (h : contains2 a b l = false) : replace2 a b rep l = l := by
  induction l with
  | nil => rfl
  | cons c tail ih =>
    cases tail with
    | nil => rfl
    | cons d rest =>
      rw [contains2] at h
      have h1 : ¬(c = a ∧ d = b) := by
        intro ⟨e1, e2⟩
        rw [e1, e2] at h
        simp at h
      have h2 : contains2 a b (d :: rest) = false := by
        cases hc : contains2 a b (d :: rest) with
        | false => rfl
        | true => rw [hc] at h; simp at h
      rw [replace2, if_neg h1, ih h2]

theorem contains2_false_of_not_mem {a : Char} (b : Char) {l : List Char}
    (h : a ∉ l) : contains2 a b l = false := by
  induction l with
  | nil => rfl
  | cons c tail ih =>
    cases tail with
    | nil => rfl
    | cons d rest =>
      have hc : ¬ c = a := fun e => h (by rw [← e]; exact List.mem_cons_self c (d :: rest))
      rw [contains2]
      have ht := ih (fun hm => h (List.mem_cons_of_mem c hm))
      simp [hc, ht]

theorem decGo_eq_self {l : List Char} (h : '&' ∉ l) : decGo none l = l := by
  induction l with
  | nil => rfl
  | cons c rest ih =>
    have hc : ¬ c = '&' := fun e => h (by rw [e]; exact List.mem_cons_self '&' rest)
    rw [decGo, if_neg hc, ih (fun hm => h (List.mem_cons_of_mem c hm))]

theorem stripGo_eq_self {l : List Char} (h : '<' ∉ l) : stripGo false l = l := by
  induction l with
  | nil => rfl
  | cons c rest ih =>
    have hc : ¬ c = '<' := fun e => h (by rw [e]; exact List.mem_cons_self '<' rest)
    rw [stripGo, if_neg hc, ih (fun hm => h (List.mem_cons_of_mem c hm))]

theorem escapeChain_eq_self {l : List Char} (hb : bsl ∉ l)
    (h1 : contains2 '/' '/' l = false) (h2 : contains2 '/' '.' l = false) :
    escapeChain l = l := by
  have hbs : ∀ b rep, replace2 bsl b rep l = l := fun b rep =>
    replace2_eq_self rep (contains2_false_of_not_mem b hb)
  simp only [escapeChain, hbs, replace2_eq_self _ h1, replace2_eq_self _ h2]

theorem noAdjWs_cleanTextList (l : List Char) : noAdjWs (cleanTextList l) = true :=
  noAdjWs_jsTrim _ (noAdjWs_collapseWs _)

theorem wsIsSpace_cleanTextList (l : List Char) : wsIsSpace (cleanTextList l) = true :=
  wsIsSpace_jsTrim _ (wsIsSpace_collapseWs _)

theorem headNotWs_cleanTextList (l : List Char) : headNotWs (cleanTextList l) = true :=
  headNotWs_jsTrim _

theorem lastNotWs_cleanTextList (l : List Char) : lastNotWs (cleanTextList l) = true :=
  lastNotWs_jsTrim _

/-- Stability of an already-cleaned string: none of the characters or
two-character patterns any pipeline stage reacts to remains. -/
def stableOut (l : List Char) : Prop :=
  bsl ∉ l ∧ '&' ∉ l ∧ '<' ∉ l ∧ contains2 '/' '/' l = false ∧ contains2 '/' '.' l = false

instance stableOut_dec : DecidablePred stableOut := fun l =>
  decidable_of_iff
    (bsl ∉ l ∧ '&' ∉ l ∧ '<' ∉ l ∧ contains2 '/' '/' l = false ∧ contains2 '/' '.' l = false)
    Iff.rfl

theorem cleanTextList_fix {s : List Char} (h : stableOut (cleanTextList s)) :
    cleanTextList (cleanTextList s) = cleanTextList s := by
  obtain ⟨h1, h2, h3, h4, h5⟩ := h
  have e1 : decodeEntities (cleanTextList s) = cleanTextList s := decGo_eq_self h2
  have e2 : stripTags (cleanTextList s) = cleanTextList s := stripGo_eq_self h3
  have e3 : escapeChain (cleanTextList s) = cleanTextList s := escapeChain_eq_self h1 h4 h5
  show jsTrim (collapseWs (escapeChain (stripTags (decodeEntities (cleanTextList s))))) = cleanTextList s
  rw [e1, e2, e3]
  exact jsTrim_collapseWs_eq_self (noAdjWs_cleanTextList s) (wsIsSpace_cleanTextList s)
    (headNotWs_cleanTextList s) (lastNotWs_cleanTextList s)

theorem getField_setField_same (o : JsObj) (k : String) (v : JsValue) :
    getField (setField o k v) k = v := by
  induction o with
  | nil => simp [setField, getField]
  | cons p rest ih =>
    obtain ⟨k', w⟩ := p
    by_cases h : k' = k
    · rw [setField, if_pos h, getField, if_pos rfl]
    · rw [setField, if_neg h, getField, if_neg h, ih]

theorem getField_setField_ne (o : JsObj) {k k' : String} (v : JsValue)
    (h : k' ≠ k) : getField (setField o k' v) k = getField o k := by
  induction o with
  | nil => simp [setField, getField, h]
  | cons p rest ih =>
    obtain ⟨k0, w⟩ := p
    by_cases h0 : k0 = k'
    · rw [setField, if_pos h0, getField, if_neg h, getField, if_neg (h0 ▸ h ∘ Eq.symm ∘ Eq.symm)]
    · rw [setField, if_neg h0, getField, getField, ih]

theorem hasKey_setField_same (o : JsObj) (k : String) (v : JsValue) :
    hasKey (setField o k v) k = true := by
  induction o with
  | nil => simp [setField, hasKey]
  | cons p rest ih =>
    obtain ⟨k0, w⟩ := p
    by_cases h0 : k0 = k
    · rw [setField, if_pos h0, hasKey, if_pos rfl]
    · rw [setField, if_neg h0, hasKey, if_neg h0, ih]

theorem hasKey_setField_mono (o : JsObj) {k : String} (k' : String) (v : JsValue)
    (h : hasKey o k = true) : hasKey (setField o k' v) k = true := by
  induction o with
  | nil => simp [hasKey] at h
  | cons p rest ih =>
    obtain ⟨k0, w⟩ := p
    by_cases h0 : k0 = k'
    · rw [setField, if_pos h0]
      by_cases h1 : k' = k
      · rw [hasKey, if_pos h1]
      · rw [hasKey, if_neg h1]
        rw [hasKey] at h
        rw [if_neg (by rw [h0]; exact h1)] at h
        exact h
    · rw [setField, if_neg h0]
      by_cases h1 : k0 = k
      · rw [hasKey, if_pos h1]
      · rw [hasKey, if_neg h1]
        rw [hasKey, if_neg h1] at h
        exact ih h

/-- The five text fields of the record are values `cleanText` accepts
(strings, or falsy values), so cleaning cannot throw. -/
def TextOk (o : JsObj) : Prop := ∀ k ∈ textKeys, (cleanText (getField o k)).isSome

theorem cleanRecordFrom_spec {o : JsObj} (h : TextOk o) :
    ∃ o', cleanRecordFrom o = some o' ∧
      (∀ k ∈ textKeys, cleanText (getField o k) = some (getField o' k)) ∧
      (∀ k, k ∉ textKeys → getField o' k = getField o k) ∧
      (∀ k ∈ textKeys, hasKey o' k = true) := by
  obtain ⟨t, ht⟩ := Option.isSome_iff_exists.mp (h "title" (by simp [textKeys]))
  obtain ⟨d, hd⟩ := Option.isSome_iff_exists.mp (h "description" (by simp [textKeys]))
  obtain ⟨c, hc⟩ := Option.isSome_iff_exists.mp (h "content" (by simp [textKeys]))
  obtain ⟨a, ha⟩ := Option.isSome_iff_exists.mp (h "author" (by simp [textKeys]))
  obtain ⟨g, hg⟩ := Option.isSome_iff_exists.mp (h "category" (by simp [textKeys]))
  refine ⟨setField (setField (setField (setField (setField o "title" t)
    "description" d) "content" c) "author" a) "category" g, ?_, ?_, ?_, ?_⟩
  · simp [cleanRecordFrom, ht, hd, hc, ha, hg]
  · intro k hk
    simp only [textKeys, List.mem_cons, List.mem_singleton] at hk
    rcases hk with rfl | rfl | rfl | rfl | rfl | hk
    · rw [getField_setField_ne _ _ (by decide), getField_setField_ne _ _ (by decide),
        getField_setField_ne _ _ (by decide), getField_setField_ne _ _ (by decide),
        getField_setField_same]
      exact ht
    · rw [getField_setField_ne _ _ (by decide), getField_setField_ne _ _ (by decide),
        getField_setField_ne _ _ (by decide), getField_setField_same]
      exact hd
    · rw [getField_setField_ne _ _ (by decide), getField_setField_ne _ _ (by decide),
        getField_setField_same]
      exact hc
    · rw [getField_setField_ne _ _ (by decide), getField_setField_same]
      exact ha
    · rw [getField_setField_same]
      exact hg
    · simp at hk
  · intro k hk
    simp only [textKeys, List.mem_cons, List.mem_singleton] at hk
    push_neg at hk
    obtain ⟨n1, n2, n3, n4, n5⟩ := hk
    rw [getField_setField_ne _ _ (fun e => n5.1 e.symm),
      getField_setField_ne _ _ (fun e => n4 e.symm),
      getField_setField_ne _ _ (fun e => n3 e.symm),
      getField_setField_ne _ _ (fun e => n2 e.symm),
      getField_setField_ne _ _ (fun e => n1 e.symm)]
  · intro k hk
    simp only [textKeys, List.mem_cons, List.mem_singleton] at hk
    rcases hk with rfl | rfl | rfl | rfl | rfl | hk
    · exact hasKey_setField_mono _ _ _ (hasKey_setField_mono _ _ _
        (hasKey_setField_mono _ _ _ (hasKey_setField_mono _ _ _
          (hasKey_setField_same o "title" t))))
    · exact hasKey_setField_mono _ _ _ (hasKey_setField_mono _ _ _
        (hasKey_setField_mono _ _ _ (hasKey_setField_same _ "description" d)))
    · exact hasKey_setField_mono _ _ _ (hasKey_setField_mono _ _ _
        (hasKey_setField_same _ "content" c))
    · exact hasKey_setField_mono _ _ _ (hasKey_setField_same _ "author" a)
    · exact hasKey_setField_same _ "category" g
    · simp at hk


theorem mapClean_spec {l : List JsObj} (h : ∀ o ∈ l, TextOk o) :
    ∃ l', mapClean l = some l' ∧ l'.length = l.length ∧
      ∀ i, i < l.length →
        cleanRecordFrom (l.getD i []) = some (l'.getD i []) ∧
        (∀ k, k ∉ textKeys → getField (l'.getD i []) k = getField (l.getD i []) k) := by
  induction l with
  | nil => exact ⟨[], rfl, rfl, fun i hi => absurd hi (by simp)⟩
  | cons o rest ih =>
    obtain ⟨o', ho, hfields, hframe, hkeys⟩ :=
      cleanRecordFrom_spec (h o (List.mem_cons_self o rest))
    obtain ⟨l', hl, hlen, hidx⟩ := ih (fun x hx => h x (List.mem_cons_of_mem o hx))
    refine ⟨o' :: l', ?_, by simp [hlen], ?_⟩
    · simp [mapClean, ho, hl]
    · intro i hi
      cases i with
      | zero => exact ⟨by simpa using ho, by simpa using hframe⟩
      | succ n => simpa using hidx n (by simpa using hi)

theorem textOk_of_cleanRecordFrom {o o' : JsObj} (h : cleanRecordFrom o = some o') :
    TextOk o := by
  cases h1 : cleanText (getField o "title") with
  | none => rw [cleanRecordFrom, h1] at h; simp at h
  | some t =>
  cases h2 : cleanText (getField o "description") with
  | none => rw [cleanRecordFrom, h1, h2] at h; simp at h
  | some d =>
  cases h3 : cleanText (getField o "content") with
  | none => rw [cleanRecordFrom, h1, h2, h3] at h; simp at h
  | some c =>
  cases h4 : cleanText (getField o "author") with
  | none => rw [cleanRecordFrom, h1, h2, h3, h4] at h; simp at h
  | some a =>
  cases h5 : cleanText (getField o "category") with
  | none => rw [cleanRecordFrom, h1, h2, h3, h4, h5] at h; simp at h
  | some g =>
    intro k hk
    simp only [textKeys, List.mem_cons, List.mem_singleton] at hk
    rcases hk with rfl | rfl | rfl | rfl | rfl | hk
    · simp [h1]
    · simp [h2]
    · simp [h3]
    · simp [h4]
    · simp [h5]
    · simp at hk

theorem hasKey_of_cleanRecordFrom {o o' : JsObj} (h : cleanRecordFrom o = some o') :
    ∀ k ∈ textKeys, hasKey o' k = true := by
  obtain ⟨o2, h1, _, _, h4⟩ := cleanRecordFrom_spec (textOk_of_cleanRecordFrom h)
  rw [h] at h1
  rw [Option.some.inj h1]
  exact h4

theorem replace2_cons_of_ne (a b : Char) (rep : List Char) {d : Char} (rest : List Char)
    (hd : ¬ d = a) : ∃ t, replace2 a b rep (d :: rest) = d :: t := by
  cases rest with
  | nil => exact ⟨[], rfl⟩
  | cons e r =>
    exact ⟨replace2 a b rep (e :: r), by rw [replace2, if_neg (fun hp => hd hp.1)]⟩

theorem contains2_replace2_slash (l : List Char) :
    contains2 '/' '/' (replace2 '/' '/' [] l) = false := by
  refine replace2.induct '/' '/' []
    (fun l => contains2 '/' '/' (replace2 '/' '/' [] l) = false) rfl (fun c => rfl) ?_ ?_ l
  · intro c d rest h ih
    rw [replace2, if_pos h]
    simpa using ih
  · intro c d rest h ih
    rw [replace2, if_neg h]
    by_cases hc : c = '/'
    · have hd : ¬ d = '/' := fun e => h ⟨hc, e⟩
      obtain ⟨t, ht⟩ := replace2_cons_of_ne '/' '/' [] rest hd
      rw [ht]
      rw [ht] at ih
      rw [contains2]
      simp [hd, ih]
    · cases hr : replace2 '/' '/' [] (d :: rest) with
      | nil => rfl
      | cons x xs =>
        rw [hr] at ih
        rw [contains2]
        simp [hc, ih]

theorem hasKey_of_mapClean {l l' : List JsObj} (h : mapClean l = some l') :
    ∀ o' ∈ l', ∀ k ∈ textKeys, hasKey o' k = true := by
  induction l generalizing l' with
  | nil =>
    cases l' with
    | nil => intro o' ho'; simp at ho'
    | cons x xs => simp [mapClean] at h
  | cons o rest ih =>
    cases h1 : cleanRecordFrom o with
    | none => rw [mapClean, h1] at h; simp at h
    | some o0 =>
      cases h2 : mapClean rest with
      | none => rw [mapClean, h1, h2] at h; simp at h
      | some rest' =>
        rw [mapClean, h1, h2] at h
        have hl : o0 :: rest' = l' := by simpa using h
        intro o' ho'
        rw [← hl] at ho'
        rcases List.mem_cons.mp ho' with rfl | hmem
        · exact hasKey_of_cleanRecordFrom h1
        · exact ih h2 o' hmem

instance TextOk_dec : DecidablePred TextOk := fun o =>
  decidable_of_iff (∀ k ∈ textKeys, (cleanText (getField o k)).isSome) Iff.rfl

theorem string_data_mk (l : List Char) : (String.mk l).data = l := rfl

theorem cleanTextStr_data (s : String) : (cleanTextStr s).data = cleanTextList s.data :=
  string_data_mk (cleanTextList s.data)

theorem cleanTextStr_eq (s : String) : cleanTextStr s = String.mk (cleanTextList s.data) :=
  rfl

/-- C1: for every non-falsy input string, `cleanText` returns exactly the
result of applying, in this order, (1) HTML entity decoding, (2) HTML tag
stripping, (3) the twenty literal substitutions of the escape-repair table
sequentially in the listed order, and (4) whitespace collapse followed by
trimming. -/
theorem claim_C1 (s : String) (h : s ≠ "") :
    cleanText (.jStr s) = some (.jStr (String.mk (cleanTextPipeline s.data))) := by
  have hf : ¬ (isFalsy (.jStr s) = true) := by simp [isFalsy, h]
  have he : cleanTextPipeline s.data = cleanTextList s.data := by
    simp [cleanTextPipeline, cleanTextList, escapeRepairSpec, escapeTable, escapeChain,
      List.foldl]
  rw [cleanText, if_neg hf]
  show some (JsValue.jStr (cleanTextStr s)) = _
  rw [cleanTextStr, he]

/-- Witness for C1 at the concrete non-empty string `"ab"`. -/
theorem claim_C1_witness :
    ("ab" : String) ≠ "" ∧
    cleanText (.jStr "ab") = some (.jStr (String.mk (cleanTextPipeline "ab".data))) :=
  ⟨by decide, claim_C1 "ab" (by decide)⟩

/-- C2: on an ordered sequence of records whose five text fields are
cleanable, `cleanNewsContent` succeeds with a sequence of the same length in
the same order, where each output record comes from the input record at the
same index and every field outside the five text fields is unchanged. -/
theorem claim_C2 (l : List JsObj) (h : ∀ o ∈ l, TextOk o) :
    ∃ l', cleanNewsContent (.arr l) = some (.arr l') ∧
      l'.length = l.length ∧
      (∀ i, i < l.length → cleanRecordFrom (l.getD i []) = some (l'.getD i [])) ∧
      (∀ i, i < l.length → ∀ k, k ∉ textKeys →
        getField (l'.getD i []) k = getField (l.getD i []) k) := by
  obtain ⟨l', hm, hlen, hidx⟩ := mapClean_spec h
  exact ⟨l', by simp [cleanNewsContent, hm], hlen,
    fun i hi => (hidx i hi).1, fun i hi => (hidx i hi).2⟩

/-- Witness for C2 at a concrete two-record sequence. -/
theorem claim_C2_witness :
    (∀ o ∈ [[("title", JsValue.jStr "<b>A</b>"), ("id", JsValue.jNum 7)],
            [("author", JsValue.jNull)]], TextOk o) ∧
    (∃ l', cleanNewsContent (.arr [[("title", JsValue.jStr "<b>A</b>"), ("id", JsValue.jNum 7)],
            [("author", JsValue.jNull)]]) = some (.arr l') ∧
      l'.length = 2 ∧
      (∀ i, i < 2 → cleanRecordFrom ([[("title", JsValue.jStr "<b>A</b>"), ("id", JsValue.jNum 7)],
            [("author", JsValue.jNull)]].getD i []) = some (l'.getD i [])) ∧
      (∀ i, i < 2 → ∀ k, k ∉ textKeys →
        getField (l'.getD i []) k =
        getField ([[("title", JsValue.jStr "<b>A</b>"), ("id", JsValue.jNum 7)],
            [("author", JsValue.jNull)]].getD i []) k)) :=
  ⟨by decide, claim_C2 _ (by decide)⟩

/-- C3: the double-slash rule deletes every adjacent `//` occurrence
unconditionally — no `//` survives it — and in particular the pipeline turns
`See http://example.com` into `See http:example.com`. -/
theorem claim_C3 :
    (∀ l : List Char, contains2 '/' '/' (replace2 '/' '/' [] l) = false) ∧
    cleanText (.jStr "See http://example.com") = some (.jStr "See http:example.com") :=
  ⟨contains2_replace2_slash, by decide⟩

/-- C4: the three falsy inputs are returned unchanged without an exception. -/
theorem claim_C4 :
    cleanText .jNull = some .jNull ∧ cleanText .jUndef = some .jUndef ∧
    cleanText (.jStr "") = some (.jStr "") := by
  decide

set_option maxHeartbeats 1600000 in
/-- C5 counterexample: `"a&amp;amp;b"` contains no backslash at all (so no
newly-introduced backslash escape sequence), yet a second `cleanText` pass
decodes the re-exposed entity and changes the string again. -/
theorem claim_C5_counterexample :
    cleanText (.jStr "a&amp;amp;b") = some (.jStr "a&amp;b") ∧
    cleanText (.jStr "a&amp;b") = some (.jStr "a&b") ∧
    (JsValue.jStr "a&b" ≠ JsValue.jStr "a&amp;b") ∧
    bsl ∉ "a&amp;amp;b".data ∧ bsl ∉ "a&amp;b".data := by
  decide

/-- C5 (amended): `cleanText` is idempotent on every string whose cleaned
form contains none of the characters `&`, `<`, `\\` and neither of the
substrings `//` and `/.` — the characters and patterns a second pass could
still react to: whenever `cleanText` maps such an `s` to `t`, it maps `t`
to `t`. -/
theorem claim_C5 (s : String) (h : stableOut (cleanTextStr s).data) :
    ∀ t, cleanText (.jStr s) = some t → cleanText t = some t := by
  intro t ht0
  by_cases hs : s = ""
  · subst hs
    have : t = JsValue.jStr "" := (Option.some.inj ht0).symm
    subst this
    rfl
  · have hf : ¬ (isFalsy (.jStr s) = true) := by simp [isFalsy, hs]
    have h1 : cleanText (.jStr s) = some (.jStr (cleanTextStr s)) := by
      rw [cleanText, if_neg hf]
    rw [h1] at ht0
    obtain rfl := (Option.some.inj ht0)
    by_cases ht : cleanTextStr s = ""
    · rw [ht]
      rfl
    · have hf2 : ¬ (isFalsy (.jStr (cleanTextStr s)) = true) := by simp [isFalsy, ht]
      rw [cleanText, if_neg hf2]
      show some (JsValue.jStr (cleanTextStr (cleanTextStr s))) =
        some (JsValue.jStr (cleanTextStr s))
      rw [cleanTextStr_data] at h
      have hfix : cleanTextStr (cleanTextStr s) = cleanTextStr s := by
        rw [cleanTextStr_eq (cleanTextStr s), cleanTextStr_data, cleanTextList_fix h,
          ← cleanTextStr_eq]
      rw [hfix]

/-- Witness for C5 at the concrete stable string `"hello world"`. -/
theorem claim_C5_witness :
    stableOut (cleanTextStr "hello world").data ∧
    cleanText (.jStr "hello world") = some (.jStr "hello world") ∧
    cleanText (.jStr "hello world") = some (.jStr "hello world") :=
  ⟨by decide, by decide,
    claim_C5 "hello world" (by decide) (.jStr "hello world") (by decide)⟩

/-- C6: every `cleanText` output has no two adjacent whitespace characters
and no leading or trailing whitespace; the concrete whitespace-collapse
example holds. -/
theorem claim_C6 :
    (∀ s : String, noAdjWs (cleanTextStr s).data = true ∧
      headNotWs (cleanTextStr s).data = true ∧ lastNotWs (cleanTextStr s).data = true) ∧
    cleanText (.jStr "a   b\n\nc") = some (.jStr "a b c") := by
  constructor
  · intro s
    rw [cleanTextStr_data]
    exact ⟨noAdjWs_cleanTextList _, headNotWs_cleanTextList _, lastNotWs_cleanTextList _⟩
  · decide

/-- C7: the three concrete examples — entity decoding, tag stripping and
escape repair (the apostrophe is written via its code point to keep the
sources plain). -/
theorem claim_C7 :
    cleanText (.jStr "Caf&eacute;") = some (.jStr "Café") ∧
    cleanText (.jStr "<p>Hello <b>World</b></p>") = some (.jStr "Hello World") ∧
    cleanText (.jStr ("It\\" ++ String.mk [apos] ++ "s a test\\.")) =
      some (.jStr ("It" ++ String.mk [apos] ++ "s a test.")) := by
  decide

/-- C8: on a single record with cleanable text fields, `cleanNewsContent`
returns a record whose five text fields went through `cleanText` and whose
other fields are unchanged; the concrete `content: null, title: "<i>X</i>"`
record yields `content: null, title: "X"`. -/
theorem claim_C8 :
    (∀ o : JsObj, TextOk o →
      ∃ o', cleanNewsContent (.obj o) = some (.obj o') ∧
        (∀ k ∈ textKeys, cleanText (getField o k) = some (getField o' k)) ∧
        (∀ k, k ∉ textKeys → getField o' k = getField o k)) ∧
    cleanNewsContent (.obj [("content", .jNull), ("title", .jStr "<i>X</i>")]) =
      some (.obj [("content", .jNull), ("title", .jStr "X"), ("description", .jUndef),
        ("author", .jUndef), ("category", .jUndef)]) := by
  constructor
  · intro o h
    obtain ⟨o', h1, h2, h3, _⟩ := cleanRecordFrom_spec h
    exact ⟨o', by simp [cleanNewsContent, h1], h2, h3⟩
  · decide

/-- Witness for C8 at a concrete single record. -/
theorem claim_C8_witness :
    TextOk [("title", JsValue.jStr "hi")] ∧
    (∃ o', cleanNewsContent (.obj [("title", JsValue.jStr "hi")]) = some (.obj o') ∧
      (∀ k ∈ textKeys,
        cleanText (getField [("title", JsValue.jStr "hi")] k) = some (getField o' k)) ∧
      (∀ k, k ∉ textKeys →
        getField o' k = getField [("title", JsValue.jStr "hi")] k)) :=
  ⟨by decide, claim_C8.1 [("title", JsValue.jStr "hi")] (by decide)⟩

/-- C9: on `null` and on `undefined`, `cleanNewsContent` neither throws nor
returns the input: it builds a record whose five text fields are all
`undefined`. -/
theorem claim_C9 :
    cleanNewsContent .nullV = some (.obj [("title", .jUndef), ("description", .jUndef),
      ("content", .jUndef), ("author", .jUndef), ("category", .jUndef)]) ∧
    cleanNewsContent .undefV = some (.obj [("title", .jUndef), ("description", .jUndef),
      ("content", .jUndef), ("author", .jUndef), ("category", .jUndef)]) ∧
    (NewsValue.obj [("title", .jUndef), ("description", .jUndef),
      ("content", .jUndef), ("author", .jUndef), ("category", .jUndef)] ≠ .nullV) ∧
    (NewsValue.obj [("title", .jUndef), ("description", .jUndef),
      ("content", .jUndef), ("author", .jUndef), ("category", .jUndef)] ≠ .undefV) := by
  decide

/-- C10: every record produced by either branch of `cleanNewsContent` has all
five text keys, and the output key set can strictly exceed the input's, as
the concrete one-field record shows. -/
theorem claim_C10 :
    (∀ o o', cleanNewsContent (.obj o) = some (.obj o') →
      ∀ k ∈ textKeys, hasKey o' k = true) ∧
    (∀ l l', cleanNewsContent (.arr l) = some (.arr l') →
      ∀ o' ∈ l', ∀ k ∈ textKeys, hasKey o' k = true) ∧
    hasKey [("image", JsValue.jStr "x")] "title" = false ∧
    cleanNewsContent (.obj [("image", JsValue.jStr "x")]) =
      some (.obj [("image", JsValue.jStr "x"), ("title", .jUndef), ("description", .jUndef),
        ("content", .jUndef), ("author", .jUndef), ("category", .jUndef)]) := by
  refine ⟨?_, ?_, by decide, by decide⟩
  · intro o o' h
    rw [cleanNewsContent] at h
    obtain ⟨a, ha, hb⟩ := Option.map_eq_some'.mp h
    injection hb with hb2
    subst hb2
    exact hasKey_of_cleanRecordFrom ha
  · intro l l' h
    rw [cleanNewsContent] at h
    obtain ⟨a, ha, hb⟩ := Option.map_eq_some'.mp h
    injection hb with hb2
    subst hb2
    exact hasKey_of_mapClean ha

/-- Witness for C10: the object branch applied to the concrete one-field
record has the `title` key in its output. -/
theorem claim_C10_witness :
    hasKey [("image", JsValue.jStr "x"), ("title", .jUndef), ("description", .jUndef),
      ("content", .jUndef), ("author", .jUndef), ("category", .jUndef)] "title" = true :=
  claim_C10.1 [("image", JsValue.jStr "x")]
    [("image", JsValue.jStr "x"), ("title", .jUndef), ("description", .jUndef),
      ("content", .jUndef), ("author", .jUndef), ("category", .jUndef)]
    (by decide) "title" (by simp [textKeys])
